import Mathlib

/-!
Verification of the Heist shell-history ingestion and analytics pipeline.

The Rust sources are embedded shallowly: commands and file lines are
`List Char`, points in time are `Int` (seconds since the epoch; the local
time zone only relabels instants, so an integer instant is faithful for
every claim below), `chrono::Duration::num_minutes` is truncated division
by 60 (`Int.tdiv`), and `Option` models Rust `Option`.  File system access
and the `chrono` parsing/validation routines are external to the crate and
enter the model as explicit parameters.
-/

namespace Heist

/-- Whitespace test used by Rust `str::trim` / `split_whitespace`
(restricted to the ASCII whitespace that can occur in history lines). -/
def isWs (c : Char) : Bool := c = ' ' ∨ c = '\t' ∨ c = '\n' ∨ c = '\r'

/-- Model of Rust `str::trim_start`. -/
def trimStart (s : List Char) : List Char := s.dropWhile isWs

/-- Model of Rust `str::trim_end`. -/
def trimEnd (s : List Char) : List Char := (s.reverse.dropWhile isWs).reverse

/-- Model of Rust `str::trim`. -/
def trim (s : List Char) : List Char := trimEnd (trimStart s)

/-- Does `pat` occur at the start of `s`?  (Rust `str::starts_with`.) -/
def startsWithSeq : List Char → List Char → Bool
  | [], _ => true
  | _ :: _, [] => false
  | p :: ps, s :: ss => p = s && startsWithSeq ps ss

/-- Does `pat` occur as a contiguous substring of `s`?  (Rust `str::contains`.) -/
def containsSub (s pat : List Char) : Bool :=
  startsWithSeq pat s ||
    match s with
    | [] => false
    | _ :: rest => containsSub rest pat

/-- Model of Rust `str::split_once(c)`: split at the first occurrence of `c`,
returning the parts before and after it, or `none` when `c` does not occur. -/
def splitOnce (c : Char) : List Char → Option (List Char × List Char)
  | [] => none
  | x :: xs =>
    if x = c then some ([], xs)
    else (splitOnce c xs).map (fun p => (x :: p.1, p.2))

/-- The record type of `src/models.rs` (`HistoryEntry`): an optional local
timestamp, the command text, and an optional session id. -/
structure HistoryEntry where
  timestamp : Option Int
  command : List Char
  session_id : Option Nat
deriving DecidableEq, Repr

/-- The shell dialects of `src/cli.rs` (`ShellType`). -/
inductive ShellType where
  | Bash | Zsh | Fish | Csh | Tcsh | Ksh | Dash | Sh | Mksh | Yash | Osh
deriving DecidableEq, Repr

/-- Model of `detect_shell` (src/parser/mod.rs): the cascade of substring
tests on the `SHELL` environment value, which enters as the argument. -/
def detect_shell (shell : List Char) : ShellType :=
  if containsSub shell "zsh".data then ShellType.Zsh
  else if containsSub shell "fish".data then ShellType.Fish
  else if containsSub shell "csh".data && !containsSub shell "tcsh".data then ShellType.Csh
  else if containsSub shell "tcsh".data then ShellType.Tcsh
  else if containsSub shell "ksh".data then ShellType.Ksh
  else if containsSub shell "dash".data then ShellType.Dash
  else if containsSub shell "mksh".data then ShellType.Mksh
  else if containsSub shell "yash".data then ShellType.Yash
  else if containsSub shell "osh".data then ShellType.Osh
  else if containsSub shell "sh".data then ShellType.Sh
  else if containsSub shell "bash".data then ShellType.Bash
  else ShellType.Bash

/-- The substring test order stated in the specification (section 4.1),
paired with the dialect each substring selects. -/
def specOrder : List (List Char × ShellType) :=
  [("zsh".data, ShellType.Zsh), ("fish".data, ShellType.Fish),
   ("tcsh".data, ShellType.Tcsh), ("csh".data, ShellType.Csh),
   ("ksh".data, ShellType.Ksh), ("dash".data, ShellType.Dash),
   ("mksh".data, ShellType.Mksh), ("yash".data, ShellType.Yash),
   ("osh".data, ShellType.Osh), ("sh".data, ShellType.Sh),
   ("bash".data, ShellType.Bash)]

/-- First-match selection: return the dialect of the first listed substring
the input contains, defaulting to bash. -/
def firstMatch (shell : List Char) : List (List Char × ShellType) → ShellType
  | [] => ShellType.Bash
  | (pat, d) :: rest => if containsSub shell pat then d else firstMatch shell rest

/-- Dialect detection as the specification words it: test the substrings of
`specOrder` in order, first match wins, default bash. -/
def detectSpec (shell : List Char) : ShellType :=
  firstMatch shell specOrder

/-- Value of a digit run, as accumulated by Rust's integer parsing. -/
def digitsToNat (ds : List Char) : Nat :=
  ds.foldl (fun n c => n * 10 + (c.toNat - '0'.toNat)) 0

/-- Model of Rust `str::parse::<i64>()`: an optional sign followed by a
non-empty digit run, rejected on 64-bit overflow. -/
def parseI64 (s : List Char) : Option Int :=
  let core := fun (neg : Bool) (ds : List Char) =>
    if ds ≠ [] ∧ ds.all Char.isDigit then
      let n := digitsToNat ds
      if neg then (if n ≤ 9223372036854775808 then some (-(n : Int)) else none)
      else (if n ≤ 9223372036854775807 then some ((n : Int)) else none)
    else none
  match s with
  | '+' :: ds => core false ds
  | '-' :: ds => core true ds
  | ds => core false ds

/-- Model of `parse_bash_history` on the file's lines (src/parser/mod.rs):
every non-blank trimmed line becomes an untimed record.  `dash` and `sh`
delegate to this reader. -/
def parse_bash_history (lines : List (List Char)) : List HistoryEntry :=
  lines.foldr
    (fun line acc => if trim line = [] then acc else ⟨none, trim line, none⟩ :: acc) []

/-- Model of `infer_timestamps_from_file` (src/parser/mod.rs).  `mtime` is
the file modification time when available (`fs::metadata` is external I/O
and enters as a parameter).  The Rust body is
`(0..n).rev().map(|i| Some(last_ts - Duration::minutes((n-1-i) as i64))).collect()`;
`(0..n).rev()` iterates `n-1, …, 0` and `collect` keeps iteration order. -/
def infer_timestamps_from_file (mtime : Option Int) (lines : List (List Char)) :
    List (Option Int) :=
  let n := lines.length
  match mtime with
  | some last_ts =>
    (List.range n).reverse.map (fun i => some (last_ts - 60 * ((n - 1 - i : Nat) : Int)))
  | none => List.replicate n none

/-- Model of `parse_csh_history` / `parse_ksh_history` / `parse_mksh_history`
/ `parse_yash_history` / `parse_osh_history`, whose bodies are identical up
to the file path: collect the lines, infer timestamps from the file
modification time, and keep every non-blank trimmed line with the inferred
timestamp at its index. -/
def parse_plain_history_inferred (mtime : Option Int) (lines : List (List Char)) :
    List HistoryEntry :=
  let timestamps := infer_timestamps_from_file mtime lines
  lines.enum.foldr
    (fun p acc =>
      if trim p.2 = [] then acc
      else ⟨(timestamps.get? p.1).getD none, trim p.2, none⟩ :: acc) []

/-- Model of `parse_tcsh_history` (src/parser/mod.rs): a trimmed non-blank
line containing a tab splits at the first tab into an epoch (parsed, then
converted by the external `chrono` conversion `epochToLocal`) and the
command; other lines are untimed commands.  `epochToLocal` models
`Local.timestamp_opt(t, 0).single()`. -/
def parse_tcsh_history (epochToLocal : Int → Option Int) (lines : List (List Char)) :
    List HistoryEntry :=
  lines.foldr
    (fun line acc =>
      let trimmed := trim line
      if trimmed = [] then acc
      else
        match splitOnce '\t' trimmed with
        | some (ts, cmd) => ⟨(parseI64 ts).bind epochToLocal, cmd, none⟩ :: acc
        | none => ⟨none, trimmed, none⟩ :: acc) []

/-- Matcher for the zsh regex `^: (\d+):\d+;(.*)`: both digit runs are
greedy and followed by literals no digit can match, so maximal-munch
scanning is equivalent to the regex.  Returns the two captures used by the
reader: the first digit run and the text after the semicolon. -/
def zshMatch (line : List Char) : Option (List Char × List Char) :=
  match line with
  | ':' :: ' ' :: rest =>
    let d1 := rest.takeWhile Char.isDigit
    if d1 = [] then none
    else
      match rest.dropWhile Char.isDigit with
      | ':' :: r2 =>
        if r2.takeWhile Char.isDigit = [] then none
        else
          match r2.dropWhile Char.isDigit with
          | ';' :: cmd => some (d1, cmd)
          | _ => none
      | _ => none
  | _ => none

/-- Model of `parse_zsh_history` (src/parser/mod.rs): a line matching the
timestamp pattern yields a record with the converted epoch and the trimmed
capture as command; any other non-blank line is kept verbatim (trimmed) as
an untimed command. -/
def parse_zsh_history (epochToLocal : Int → Option Int) (lines : List (List Char)) :
    List HistoryEntry :=
  lines.foldr
    (fun line acc =>
      match zshMatch line with
      | some (d1, cmd) => ⟨(parseI64 d1).bind epochToLocal, trim cmd, none⟩ :: acc
      | none => if trim line = [] then acc else ⟨none, trim line, none⟩ :: acc) []

/-- Loop of `parse_fish_history` (src/parser/mod.rs), carrying the pending
command and pending timestamp exactly as the Rust mutable locals do.  Note
that the source tests `line.trim_start().starts_with("  when: ")`, and that
the pending timestamp is reset only when a pending command is flushed. -/
def fishLoop (epochToLocal : Int → Option Int) :
    List (List Char) → Option (List Char) → Option Int → List HistoryEntry
  | [], command, timestamp =>
    match command with
    | some cmd => [⟨timestamp, cmd, none⟩]
    | none => []
  | line :: rest, command, timestamp =>
    if startsWithSeq "- cmd: ".data (trimStart line) then
      match command with
      | some cmd =>
        ⟨timestamp, cmd, none⟩ :: fishLoop epochToLocal rest (some ((trimStart line).drop 7)) none
      | none => fishLoop epochToLocal rest (some ((trimStart line).drop 7)) timestamp
    else if startsWithSeq "  when: ".data (trimStart line) then
      fishLoop epochToLocal rest command
        ((parseI64 ((trimStart line).drop 8)).bind epochToLocal)
    else fishLoop epochToLocal rest command timestamp

/-- Model of `parse_fish_history` (src/parser/mod.rs). -/
def parse_fish_history (epochToLocal : Int → Option Int) (lines : List (List Char)) :
    List HistoryEntry :=
  fishLoop epochToLocal lines none none

/-- Model of `parse_heist_live_history` (src/parser/mod.rs) on the live
log's lines.  `parseTs` models the external
`chrono::DateTime::parse_from_str(ts, "%Y-%m-%dT%H:%M:%S%z")` converted to
local time (`.ok().map(|dt| dt.with_timezone(&Local))`); it returns `none`
exactly on the prefixes that fail to parse. -/
def parse_heist_live_history (parseTs : List Char → Option Int)
    (lines : List (List Char)) : List HistoryEntry :=
  lines.foldr
    (fun line acc =>
      match splitOnce '|' line with
      | some (ts, cmd) => ⟨parseTs ts, trim cmd, none⟩ :: acc
      | none => acc) []

/-- Ordering on optional timestamps used by `entries.sort_by_key(|e| e.timestamp)`:
Rust derives `Ord` on `Option` with `None` below every `Some`, and `Some`s
compared by value. -/
def optLeB : Option Int → Option Int → Bool
  | none, _ => true
  | some _, none => false
  | some x, some y => x ≤ y

/-- Sort relation on records: compare by the `timestamp` key only. -/
def tsLe (a b : HistoryEntry) : Prop := optLeB a.timestamp b.timestamp = true

instance : DecidableRel tsLe :=
  fun a b => inferInstanceAs (Decidable (optLeB a.timestamp b.timestamp = true))

theorem optLeB_total (x y : Option Int) : optLeB x y = true ∨ optLeB y x = true := by
  cases x with
  | none => exact Or.inl rfl
  | some xv =>
    cases y with
    | none => exact Or.inr rfl
    | some yv => simpa [optLeB] using Int.le_total xv yv

theorem optLeB_trans {x y z : Option Int} (hxy : optLeB x y = true)
    (hyz : optLeB y z = true) : optLeB x z = true := by
  cases x with
  | none => rfl
  | some xv =>
    cases y with
    | none => simp [optLeB] at hxy
    | some yv =>
      cases z with
      | none => simp [optLeB] at hyz
      | some zv =>
        simp only [optLeB, decide_eq_true_eq] at *
        omega

theorem optLeB_refl (x : Option Int) : optLeB x x = true := by
  cases x <;> simp [optLeB]

theorem optLeB_antisymm {x y : Option Int} (hxy : optLeB x y = true)
    (hyx : optLeB y x = true) : x = y := by
  cases x with
  | none =>
    cases y with
    | none => rfl
    | some yv => simp [optLeB] at hyx
  | some xv =>
    cases y with
    | none => simp [optLeB] at hxy
    | some yv =>
      simp only [optLeB, decide_eq_true_eq] at hxy hyx
      exact congrArg some (Int.le_antisymm hxy hyx)

instance : IsTotal HistoryEntry tsLe := ⟨fun x y => optLeB_total x.timestamp y.timestamp⟩

instance : IsTrans HistoryEntry tsLe := ⟨fun _ _ _ hab hbc => optLeB_trans hab hbc⟩

instance : IsRefl HistoryEntry tsLe := ⟨fun _ => optLeB_refl _⟩

/-- Stable sort by timestamp.  Rust `sort_by_key` is a stable sort; the
output of a stable sort is uniquely determined by the input and the key
order (the elements of each key class appear in input order), so insertion
sort — itself stable — produces the same list as the Rust sort. -/
def sortEntries (l : List HistoryEntry) : List HistoryEntry :=
  List.insertionSort tsLe l

/-- Equality relation of `dedup_by` in `parse_history`:
`a.timestamp == b.timestamp && a.command == b.command`. -/
def dedupSame (a b : HistoryEntry) : Bool :=
  a.timestamp == b.timestamp && a.command == b.command

/-- Tail of Rust `Vec::dedup_by`: drop each element equal (under
`dedupSame`) to the most recently kept element `prev`. -/
def dedupAux (prev : HistoryEntry) : List HistoryEntry → List HistoryEntry
  | [] => []
  | b :: rest => if dedupSame prev b then dedupAux prev rest else b :: dedupAux b rest

/-- Model of `Vec::dedup_by`: keep the first element of every run of
consecutive `dedupSame`-equal elements. -/
def dedupAdj : List HistoryEntry → List HistoryEntry
  | [] => []
  | a :: rest => a :: dedupAux a rest

/-- The normalization step of `parse_history` (src/parser/mod.rs lines
72–81) applied to the concatenated dialect and live-log output:
`entries.sort_by_key(|e| e.timestamp)` then
`entries.dedup_by(|a, b| a.timestamp == b.timestamp && a.command == b.command)`. -/
def normalize (l : List HistoryEntry) : List HistoryEntry :=
  dedupAdj (sortEntries l)

/-- Each element of a list repeated twice in place (proof device: the
stable sort of `l ++ l` under pairwise-distinct timestamps). -/
def dbl : List HistoryEntry → List HistoryEntry
  | [] => []
  | a :: s => a :: a :: dbl s

/-- Gap test of `group_sessions` (src/analyzer.rs): performed only when the
current record is timed and a timed record has been seen;
`signed_duration_since(last).num_minutes()` truncates the signed difference
toward zero at minute granularity, which `Int.tdiv` mirrors. -/
def boundaryB (gap : Int) (last ts : Option Int) : Bool :=
  match ts, last with
  | some t, some lt => Int.tdiv (t - lt) 60 > gap
  | _, _ => false

/-- Cursor update of `group_sessions`: `last_ts = Some(ts)` whenever the
record is timed, untouched otherwise. -/
def updCursor (last : Option Int) (e : HistoryEntry) : Option Int :=
  match e.timestamp with
  | some t => some t
  | none => last

/-- Loop of `group_sessions` (src/analyzer.rs lines 24–46), carrying the
accumulated `sessions`, the open `current` session and the `last_ts`
cursor exactly as the Rust mutable locals do. -/
def gsLoop (gap : Int) :
    List HistoryEntry → List (List HistoryEntry) → List HistoryEntry → Option Int →
      List (List HistoryEntry)
  | [], sessions, current, _ =>
    if current = [] then sessions else sessions ++ [current]
  | e :: rest, sessions, current, last =>
    if boundaryB gap last e.timestamp ∧ current ≠ [] then
      gsLoop gap rest (sessions ++ [current]) [e] (updCursor last e)
    else
      gsLoop gap rest sessions (current ++ [e]) (updCursor last e)

/-- Model of `group_sessions` (src/analyzer.rs). -/
def group_sessions (entries : List HistoryEntry) (gap_minutes : Int) :
    List (List HistoryEntry) :=
  gsLoop gap_minutes entries [] [] none

/-- Per-record boundary flags, worded as the specification describes
session segmentation: walking the stream while tracking the timestamp of
the most recently seen timed record, a record is flagged exactly when it is
timed and its timestamp exceeds that cursor by more than the threshold
(at the code's whole-minute granularity); untimed records are never flagged
and never move the cursor. -/
def boundaryFlags (gap : Int) (last : Option Int) : List HistoryEntry → List Bool
  | [] => []
  | e :: rest => boundaryB gap last e.timestamp :: boundaryFlags gap (updCursor last e) rest

/-- Prepend the records `c` to the first chunk of a chunk list (the
currently open session), opening the session `c` when no chunk exists. -/
def glueHead (c : List HistoryEntry) : List (List HistoryEntry) → List (List HistoryEntry)
  | [] => [c]
  | s :: ss => (c ++ s) :: ss

/-- Cut a stream into sessions at its flagged records: the first record
always opens session 0 (its own flag is irrelevant), and every later
record whose flag is `true` starts a new session; an unflagged record is
glued onto the session its predecessor is in. -/
def cutAtFlags : List (HistoryEntry × Bool) → List (List HistoryEntry)
  | [] => []
  | [(e, _)] => [[e]]
  | (e, _) :: (f, b) :: rest =>
    if b then [e] :: cutAtFlags ((f, b) :: rest)
    else glueHead [e] (cutAtFlags ((f, b) :: rest))

/-- Session segmentation as the specification words it: compute each
record's boundary flag against the running last-timed-record cursor, then
cut the stream before each flagged record. -/
def sessionsSpec (entries : List HistoryEntry) (gap : Int) : List (List HistoryEntry) :=
  cutAtFlags (entries.zip (boundaryFlags gap none entries))

/-- First whitespace-delimited token of a command:
`command.split_whitespace().next().unwrap_or("")` (src/analyzer.rs). -/
def firstToken (cmd : List Char) : List Char :=
  ((cmd.dropWhile isWs).takeWhile (fun c => !isWs c))

/-- Keys of a list in first-appearance order, skipping those already in
`seen`: the order in which distinct tokens first appear in the input. -/
def firstSeenAux (seen : List (List Char)) : List (List Char) → List (List Char)
  | [] => []
  | t :: ts => if t ∈ seen then firstSeenAux seen ts else t :: firstSeenAux (t :: seen) ts

/-- The distinct first tokens of a record slice, in first-appearance order.
This is the key set of the `HashMap` built by the `--top` branch of
`analyze_history` (src/analyzer.rs); the map's iteration order is an
arbitrary permutation of it. -/
def distinctTokens (entries : List HistoryEntry) : List (List Char) :=
  firstSeenAux [] (entries.map (fun e => firstToken e.command))

/-- Number of records whose first token is `tok` — the count the `HashMap`
accumulates for that key. -/
def tokenCount (entries : List HistoryEntry) (tok : List Char) : Nat :=
  (entries.map (fun e => firstToken e.command)).count tok

/-- Comparator of `freq_vec.sort_by(|a, b| b.1.cmp(&a.1))`: descending by
count; the sort is stable, so ties keep their `freq_vec` order. -/
def countGe (a b : List Char × Nat) : Prop := b.2 ≤ a.2

instance : DecidableRel countGe := fun a b => inferInstanceAs (Decidable (b.2 ≤ a.2))

instance : IsTotal (List Char × Nat) countGe := ⟨fun a b => Nat.le_total b.2 a.2⟩

instance : IsTrans (List Char × Nat) countGe :=
  ⟨fun _ _ _ hab hbc => Nat.le_trans hbc hab⟩

/-- The `--top N` ranking of `analyze_history` (src/analyzer.rs lines
248–261), as a function of the order in which the `HashMap` yields its
keys: pair each yielded token with its count, stable-sort by count
descending, and take the first `n`. -/
def top_frequency (iterOrder : List (List Char)) (entries : List HistoryEntry)
    (n : Nat) : List (List Char × Nat) :=
  (List.insertionSort countGe
    (iterOrder.map (fun t => (t, tokenCount entries t)))).take n

/-- The fixed catalog of `flag_dangerous` (src/analyzer.rs lines 77–79),
verbatim and in source order. -/
def dangerous_patterns : List (List Char) :=
  ["rm -rf".data, "rm -r /".data, "dd if=".data, "mkfs".data,
   ":()\x7b :|:& \x7d;:".data, "shutdown".data, "reboot".data, "curl | sh".data,
   "wget | sh".data, "chmod 777 /".data, "chown root".data, "> /dev/sda".data,
   "/dev/sda".data, ":()\x7b :|: & \x7d;:".data, "rm -rf --no-preserve-root".data,
   "poweroff".data, "halt".data, "init 0".data, "mkfs.ext".data, "dd of=/dev/".data,
   "mv /".data, "cp /dev/null".data, "yes | rm".data, "yes | dd".data,
   "yes | mkfs".data]

/-- Pattern reported by `flag_dangerous` for one command: the inner loop
walks the catalog in order and `break`s at the first pattern the command
contains, so the flag is the first match (or `none`). -/
def flagOf (cmd : List Char) : Option (List Char) :=
  dangerous_patterns.find? (fun pat => containsSub cmd pat)

/-- Model of `flag_dangerous` over a record slice: each record paired with
its reported pattern, when flagged. -/
def flag_dangerous (history : List HistoryEntry) : List (HistoryEntry × List Char) :=
  history.foldr
    (fun e acc =>
      match flagOf e.command with
      | some pat => (e, pat) :: acc
      | none => acc) []

/-! ### Claim C6 — dialect detection order -/

/-- The claim's universal tail is false: a string can contain `tcsh` and
still be mapped to an earlier-tested dialect.  `"zshtcsh"` contains `tcsh`
(and `csh`) but the `zsh` test fires first. -/
theorem detect_shell_tcsh_cex :
    containsSub "zshtcsh".data "tcsh".data = true ∧
    detect_shell "zshtcsh".data = ShellType.Zsh ∧
    ShellType.Zsh ≠ ShellType.Tcsh := by decide

/-- Claim C6 (amended): `detect_shell` returns the dialect of the first
substring of the spec's list (`zsh`, `fish`, `tcsh`, `csh`, `ksh`, `dash`,
`mksh`, `yash`, `osh`, `sh`, `bash`, in that order) contained in the input,
defaulting to bash when none occurs — the source's `csh && !tcsh` test
before the `tcsh` test is equivalent to testing `tcsh` before `csh`.
Moreover every string containing `tcsh` but neither `zsh` nor `fish` maps
to tcsh, never csh. -/
theorem detect_shell_first_match :
    (∀ s : List Char, detect_shell s = detectSpec s) ∧
    (∀ s : List Char, containsSub s "tcsh".data = true →
      containsSub s "zsh".data = false → containsSub s "fish".data = false →
      detect_shell s = ShellType.Tcsh) := by
  constructor
  · intro s
    simp only [detectSpec, specOrder, firstMatch, detect_shell]
    cases htcsh : containsSub s "tcsh".data <;>
      cases hcsh : containsSub s "csh".data <;>
      simp [htcsh, hcsh]
  · intro s htcsh hzsh hfish
    simp [detect_shell, htcsh, hzsh, hfish]

/-- Witness for `detect_shell_first_match` at the concrete input `"tcsh"`. -/
theorem detect_shell_first_match_witness :
    detect_shell "tcsh".data = detectSpec "tcsh".data ∧
    detect_shell "tcsh".data = ShellType.Tcsh :=
  ⟨detect_shell_first_match.1 "tcsh".data,
   detect_shell_first_match.2 "tcsh".data (by decide) (by decide) (by decide)⟩

/-! ### Claim C9 — dangerous-pattern flagging -/

theorem find?_first_match {α : Type} (p : α → Bool) :
    ∀ (l : List α) (a : α), l.find? p = some a →
      p a = true ∧ ∃ l₁ l₂, l = l₁ ++ a :: l₂ ∧ ∀ q ∈ l₁, p q = false := by
  intro l
  induction l with
  | nil => intro a h; simp [List.find?] at h
  | cons x xs ih =>
    intro a h
    cases hx : p x with
    | true =>
      rw [List.find?_cons_of_pos _ hx] at h
      obtain rfl : x = a := by injection h
      exact ⟨hx, [], xs, rfl, by simp⟩
    | false =>
      rw [List.find?_cons_of_neg _ (by simp [hx])] at h
      obtain ⟨hpa, l₁, l₂, rfl, hnone⟩ := ih a h
      refine ⟨hpa, x :: l₁, l₂, rfl, ?_⟩
      intro q hq
      rcases List.mem_cons.mp hq with rfl | hq
      · exact hx
      · exact hnone q hq

theorem find?_isSome_iff {α : Type} (p : α → Bool) (l : List α) :
    (l.find? p).isSome = true ↔ ∃ x ∈ l, p x = true := by
  induction l with
  | nil => simp [List.find?]
  | cons x xs ih =>
    cases hx : p x with
    | true => simp [List.find?_cons_of_pos _ hx, hx]
    | false =>
      rw [List.find?_cons_of_neg _ (by simp [hx])]
      simp only [ih, List.mem_cons]
      constructor
      · rintro ⟨y, hy, hpy⟩; exact ⟨y, Or.inr hy, hpy⟩
      · rintro ⟨y, hy | hy, hpy⟩
        · subst hy; simp [hx] at hpy
        · exact ⟨y, hy, hpy⟩

/-- Claim C9: a command is flagged exactly when it contains some entry of
the fixed catalog, the reported pattern is the first catalog entry (in
catalog order) the command contains, the slice-level flagger reports
exactly the flagged records in input order, `"rm -rf /"` is flagged with
`"rm -rf"`, and `"ls -la"` is not flagged. -/
theorem flag_dangerous_first_catalog_entry :
    (∀ cmd : List Char,
      ((flagOf cmd).isSome = true ↔ ∃ p ∈ dangerous_patterns, containsSub cmd p = true) ∧
      (∀ pat, flagOf cmd = some pat →
        containsSub cmd pat = true ∧
        ∃ l₁ l₂, dangerous_patterns = l₁ ++ pat :: l₂ ∧
          ∀ q ∈ l₁, containsSub cmd q = false)) ∧
    (∀ history : List HistoryEntry,
      flag_dangerous history =
        (history.filter (fun e => (flagOf e.command).isSome)).map
          (fun e => (e, (flagOf e.command).getD []))) ∧
    flagOf "rm -rf /".data = some "rm -rf".data ∧
    flagOf "ls -la".data = none := by
  refine ⟨fun cmd => ⟨find?_isSome_iff _ _, fun pat h => find?_first_match _ _ pat h⟩,
    ?_, by decide, by decide⟩
  intro history
  induction history with
  | nil => rfl
  | cons e rest ih =>
    simp only [flag_dangerous, List.foldr] at *
    cases h : flagOf e.command with
    | none => simp [h, ih, List.filter]
    | some pat => simp [h, ih, List.filter]

/-- Witness for `flag_dangerous_first_catalog_entry` at `"rm -rf /"`. -/
theorem flag_dangerous_first_catalog_entry_witness :
    containsSub "rm -rf /".data "rm -rf".data = true :=
  ((flag_dangerous_first_catalog_entry.1 "rm -rf /".data).2 "rm -rf".data
    flag_dangerous_first_catalog_entry.2.2.1).1

/-! ### Claim C1 — inferred timestamps for plain-list dialects -/

/-- Claim C1 (behaviour the code actually has): when the modification time
is available, line `i` (0-indexed) receives `mtime − i` minutes — the
FIRST line carries the anchor and timestamps decrease with line index,
because `(0..n).rev()` reverses the iteration order that `collect`
preserves.  The claim (and the source's own comment, "use file mtime as
the most recent timestamp") wants line `i` to receive
`mtime − (n−1−i)` minutes, so the last line carries the anchor.  When the
modification time is unavailable every line is untimed, as claimed.  The
two-line evaluation at the end exhibits the divergence: the claim demands
`[some (−60), some 0]`. -/
theorem infer_timestamps_anchor_misplaced :
    (∀ (m : Int) (lines : List (List Char)) (i : Nat), i < lines.length →
      (infer_timestamps_from_file (some m) lines).get? i = some (some (m - 60 * i))) ∧
    (∀ lines : List (List Char),
      infer_timestamps_from_file none lines = List.replicate lines.length none) ∧
    infer_timestamps_from_file (some 0) ["ls".data, "pwd".data] = [some 0, some (-60)] ∧
    infer_timestamps_from_file (some 0) ["ls".data, "pwd".data] ≠ [some (-60), some 0] := by
  refine ⟨?_, fun lines => rfl, by decide, by decide⟩
  intro m lines i hi
  set n := lines.length with hn
  show ((List.range n).reverse.map
      (fun j => some (m - 60 * ((n - 1 - j : Nat) : Int)))).get? i = _
  have hlen : i < ((List.range n).reverse.map
      (fun j => some (m - 60 * ((n - 1 - j : Nat) : Int)))).length := by simpa using hi
  rw [List.get?_eq_getElem?, List.getElem?_eq_getElem hlen]
  congr 1
  rw [List.getElem_map, List.getElem_reverse, List.getElem_range]
  congr 2
  have h1 : (List.range n).length = n := by simp
  congr 1
  omega

/-! ### Claim C3 — live-log line handling -/

/-- The claim's skip-on-parse-failure half is false: a line whose prefix
fails the timestamp parse (here `"x"`, with the parser's failures modelled
by the instantiation that rejects every prefix) still contributes a record
— an untimed one — rather than being skipped. -/
theorem live_log_parse_failure_cex :
    parse_heist_live_history (fun _ => none) ["x|ls".data] =
      [⟨none, "ls".data, none⟩] ∧
    parse_heist_live_history (fun _ => none) ["x|ls".data] ≠ [] := by decide

/-- Claim C3 (amended): a line without `|` contributes no record; every
line with a `|` contributes exactly one record, whose command is the
trimmed text after the first `|` and whose timestamp is the parse result
of the text before it — `none` on parse failure, with the record kept
rather than skipped. -/
theorem live_log_line_handling :
    ∀ (pTs : List Char → Option Int) (lines : List (List Char)),
      (parse_heist_live_history pTs lines).length =
        (lines.filter (fun l => (splitOnce '|' l).isSome)).length ∧
      (∀ l ∈ lines, ∀ a b, splitOnce '|' l = some (a, b) →
        (⟨pTs a, trim b, none⟩ : HistoryEntry) ∈ parse_heist_live_history pTs lines) ∧
      ((∀ l ∈ lines, splitOnce '|' l = none) →
        parse_heist_live_history pTs lines = []) := by
  intro pTs lines
  induction lines with
  | nil => exact ⟨rfl, by simp, fun _ => rfl⟩
  | cons l rest ih =>
    obtain ⟨ihlen, ihmem, ihnil⟩ := ih
    refine ⟨?_, ?_, ?_⟩
    · simp only [parse_heist_live_history, List.foldr, List.filter] at *
      cases h : splitOnce '|' l with
      | none => simpa [h] using ihlen
      | some p => simpa [h] using ihlen
    · intro l' hl' a b hsplit
      simp only [parse_heist_live_history, List.foldr] at *
      rcases List.mem_cons.mp hl' with rfl | hl'
      · rw [hsplit]; exact List.mem_cons_self _ _
      · cases h : splitOnce '|' l with
        | none => exact ihmem l' hl' a b hsplit
        | some p =>
          obtain ⟨ts0, cmd0⟩ := p
          exact List.mem_cons_of_mem _ (ihmem l' hl' a b hsplit)
    · intro hall
      simp only [parse_heist_live_history, List.foldr] at *
      rw [hall l (List.mem_cons_self _ _)]
      exact ihnil (fun l' hl' => hall l' (List.mem_cons_of_mem _ hl'))

/-- Witness for `live_log_line_handling` on a concrete two-line log. -/
theorem live_log_line_handling_witness :
    (⟨some 5, "ls".data, none⟩ : HistoryEntry) ∈
      parse_heist_live_history (fun _ => some 5)
        ["nobar".data, "2024|ls".data] :=
  (live_log_line_handling (fun _ => some 5) ["nobar".data, "2024|ls".data]).2.1
    "2024|ls".data (by decide) "2024".data "ls".data (by decide)

/-! ### Claim C10 — session segmentation partitions its input -/

theorem gsLoop_flatten (gap : Int) :
    ∀ (es : List HistoryEntry) (sessions : List (List HistoryEntry))
      (current : List HistoryEntry) (last : Option Int),
      (gsLoop gap es sessions current last).flatten =
        sessions.flatten ++ current ++ es := by
  intro es
  induction es with
  | nil =>
    intro sessions current last
    by_cases hc : current = []
    · simp [gsLoop, hc]
    · simp [gsLoop, hc]
  | cons e rest ih =>
    intro sessions current last
    rw [gsLoop]
    by_cases hb : boundaryB gap last e.timestamp = true ∧ current ≠ []
    · rw [if_pos hb, ih]
      simp
    · rw [if_neg hb, ih]
      simp

theorem gsLoop_sessions_ne_nil (gap : Int) :
    ∀ (es : List HistoryEntry) (sessions : List (List HistoryEntry))
      (current : List HistoryEntry) (last : Option Int),
      (∀ s ∈ sessions, s ≠ []) →
      ∀ s ∈ gsLoop gap es sessions current last, s ≠ [] := by
  intro es
  induction es with
  | nil =>
    intro sessions current last hs s hmem
    by_cases hc : current = []
    · rw [gsLoop, if_pos hc] at hmem
      exact hs s hmem
    · rw [gsLoop, if_neg hc] at hmem
      rcases List.mem_append.mp hmem with h | h
      · exact hs s h
      · rw [List.mem_singleton.mp h]; exact hc
  | cons e rest ih =>
    intro sessions current last hs s hmem
    rw [gsLoop] at hmem
    by_cases hb : boundaryB gap last e.timestamp = true ∧ current ≠ []
    · rw [if_pos hb] at hmem
      refine ih _ _ _ ?_ s hmem
      intro s' hs'
      rcases List.mem_append.mp hs' with h | h
      · exact hs s' h
      · rw [List.mem_singleton.mp h]; exact hb.2
    · rw [if_neg hb] at hmem
      exact ih _ _ _ hs s hmem

/-- Claim C10: `group_sessions` partitions its input — concatenating the
returned sessions in order yields exactly the input sequence, and every
returned session is non-empty. -/
theorem group_sessions_partitions :
    ∀ (entries : List HistoryEntry) (gap : Int),
      (group_sessions entries gap).flatten = entries ∧
      ∀ s ∈ group_sessions entries gap, s ≠ [] := by
  intro entries gap
  constructor
  · rw [group_sessions, gsLoop_flatten]; simp
  · exact gsLoop_sessions_ne_nil gap entries [] [] none (by simp)

/-- Witness for `group_sessions_partitions` at a concrete stream. -/
theorem group_sessions_partitions_witness :
    ([⟨some 0, "a".data, none⟩, ⟨some 630, "b".data, none⟩] :
      List HistoryEntry) ≠ [] :=
  (group_sessions_partitions
      [⟨some 0, "a".data, none⟩, ⟨some 630, "b".data, none⟩] 10).2
    [⟨some 0, "a".data, none⟩, ⟨some 630, "b".data, none⟩] (by decide)

/-! ### Claim C5 — session boundary rule -/

theorem glueHead_glueHead (c : List HistoryEntry) (e : HistoryEntry)
    (r : List (List HistoryEntry)) :
    glueHead c (glueHead [e] r) = glueHead (c ++ [e]) r := by
  cases r <;> simp [glueHead]

theorem cutAtFlags_cons (e : HistoryEntry) (b : Bool) (l : List (HistoryEntry × Bool)) :
    cutAtFlags ((e, b) :: l) =
      match l with
      | [] => [[e]]
      | (_, bf) :: _ =>
        if bf then [e] :: cutAtFlags l else glueHead [e] (cutAtFlags l) := by
  cases l with
  | nil => rfl
  | cons hd t =>
    obtain ⟨f, bf⟩ := hd
    cases bf <;> cases hcut : cutAtFlags ((f, _) :: t) <;>
      simp [cutAtFlags, hcut, glueHead]

theorem gsLoop_eq_cut (gap : Int) :
    ∀ (es : List HistoryEntry) (last : Option Int)
      (sessions : List (List HistoryEntry)) (current : List HistoryEntry),
      current ≠ [] →
      gsLoop gap es sessions current last =
        sessions ++
          (if (boundaryFlags gap last es).headD false = true
           then current :: cutAtFlags (es.zip (boundaryFlags gap last es))
           else glueHead current (cutAtFlags (es.zip (boundaryFlags gap last es)))) := by
  intro es
  induction es with
  | nil =>
    intro last sessions current hc
    simp [gsLoop, hc, boundaryFlags, cutAtFlags, glueHead]
  | cons e rest ih =>
    intro last sessions current hc
    rw [gsLoop]
    cases hb : boundaryB gap last e.timestamp with
    | true =>
      rw [if_pos ⟨rfl, hc⟩]
      rw [ih (updCursor last e) (sessions ++ [current]) [e] (by simp)]
      simp only [boundaryFlags, hb, List.zip_cons_cons, List.headD_cons, if_pos rfl,
        cutAtFlags_cons]
      cases rest with
      | nil => simp [boundaryFlags, cutAtFlags, glueHead]
      | cons f t =>
        simp only [boundaryFlags, List.zip_cons_cons, List.headD_cons]
        cases hbf : boundaryB gap (updCursor last e) f.timestamp <;> simp [hbf]
    | false =>
      rw [if_neg (by simp [hb])]
      rw [ih (updCursor last e) sessions (current ++ [e]) (by simp)]
      simp only [boundaryFlags, hb, List.zip_cons_cons, List.headD_cons,
        Bool.false_eq_true, if_false, cutAtFlags_cons]
      cases rest with
      | nil => simp [boundaryFlags, cutAtFlags, glueHead]
      | cons f t =>
        simp only [boundaryFlags, List.zip_cons_cons, List.headD_cons]
        cases hbf : boundaryB gap (updCursor last e) f.timestamp with
        | true => simp [hbf, glueHead]
        | false => simp [hbf, glueHead_glueHead]

/-- The claim's boundary rule is false on sub-minute data: the second
record's timestamp exceeds the first's by 630 seconds, which is more than
the 10-minute threshold, yet the code opens no new session because
`num_minutes` truncates 630 s to 10 whole minutes, and `10 > 10` fails. -/
theorem session_gap_truncation_cex :
    ((630 : Int) - 0 > 10 * 60) ∧
    group_sessions [⟨some 0, "a".data, none⟩, ⟨some 630, "b".data, none⟩] 10 =
      [[⟨some 0, "a".data, none⟩, ⟨some 630, "b".data, none⟩]] := by decide

/-- Claim C5 (amended): session segmentation opens a new session exactly
when a timed record's timestamp exceeds the most recently seen timed
record's timestamp by more than the threshold when the difference is
truncated to whole minutes (toward zero, as `num_minutes` does); untimed
records are appended to the currently open session and never trigger a
boundary or update the last-seen cursor.  This is stated as equality with
`sessionsSpec`, the cut-at-boundary-flags formulation of that rule.  The
claim's example holds: timed records at `t`, `t+5`min and `t+20`min with a
10-minute threshold yield exactly two sessions of sizes 2 and 1. -/
theorem group_sessions_eq_boundary_rule :
    (∀ (entries : List HistoryEntry) (gap : Int),
      group_sessions entries gap = sessionsSpec entries gap) ∧
    group_sessions
        [⟨some 0, "a".data, none⟩, ⟨some 300, "b".data, none⟩,
         ⟨some 1200, "c".data, none⟩] 10 =
      [[⟨some 0, "a".data, none⟩, ⟨some 300, "b".data, none⟩],
       [⟨some 1200, "c".data, none⟩]] := by
  refine ⟨?_, by decide⟩
  intro entries gap
  cases entries with
  | nil => rfl
  | cons e rest =>
    rw [group_sessions, gsLoop]
    have hb : boundaryB gap none e.timestamp = false := by cases e.timestamp <;> rfl
    rw [if_neg (by simp [hb])]
    rw [show ([] : List HistoryEntry) ++ [e] = [e] from rfl]
    rw [gsLoop_eq_cut gap rest (updCursor none e) [] [e] (by simp)]
    rw [sessionsSpec]
    simp only [boundaryFlags, hb, List.zip_cons_cons, List.nil_append]
    cases rest with
    | nil => simp [boundaryFlags, cutAtFlags, glueHead]
    | cons f t =>
      simp only [boundaryFlags, List.zip_cons_cons, List.headD_cons, cutAtFlags]
      cases hbf : boundaryB gap (updCursor none e) f.timestamp <;> simp [hbf, List.zip]

/-! ### Claim C7 — invariants of the normalized stream -/

theorem dedupAux_sublist : ∀ (l : List HistoryEntry) (prev : HistoryEntry),
    List.Sublist (dedupAux prev l) l := by
  intro l
  induction l with
  | nil => intro prev; exact List.Sublist.refl _
  | cons b rest ih =>
    intro prev
    rw [dedupAux]
    by_cases h : dedupSame prev b = true
    · rw [if_pos h]; exact (ih prev).cons b
    · rw [if_neg h]; exact (ih b).cons₂ b

theorem dedupAdj_sublist (l : List HistoryEntry) : List.Sublist (dedupAdj l) l := by
  cases l with
  | nil => exact List.Sublist.refl _
  | cons a rest => exact (dedupAux_sublist rest a).cons₂ a

theorem dedupSame_eq_true_iff (a b : HistoryEntry) :
    dedupSame a b = true ↔ (a.timestamp = b.timestamp ∧ a.command = b.command) := by
  simp [dedupSame]

theorem dedupAux_chain :
    ∀ (l : List HistoryEntry) (prev : HistoryEntry),
      List.Chain' (fun a b => ¬(a.timestamp = b.timestamp ∧ a.command = b.command))
        (prev :: dedupAux prev l) := by
  intro l
  induction l with
  | nil => intro prev; simp [dedupAux]
  | cons b rest ih =>
    intro prev
    rw [dedupAux]
    by_cases h : dedupSame prev b = true
    · rw [if_pos h]; exact ih prev
    · rw [if_neg h]
      exact List.chain'_cons.mpr ⟨fun hc => h ((dedupSame_eq_true_iff prev b).mpr hc), ih b⟩

theorem dedupAdj_chain (l : List HistoryEntry) :
    List.Chain' (fun a b => ¬(a.timestamp = b.timestamp ∧ a.command = b.command))
      (dedupAdj l) := by
  cases l with
  | nil => simp [dedupAdj]
  | cons a rest => exact dedupAux_chain rest a

theorem filter_orderedInsert (k : Option Int) (a : HistoryEntry) :
    ∀ l : List HistoryEntry,
      (List.orderedInsert tsLe a l).filter (fun e => e.timestamp == k) =
        if a.timestamp == k then a :: l.filter (fun e => e.timestamp == k)
        else l.filter (fun e => e.timestamp == k) := by
  intro l
  induction l with
  | nil => simp [List.orderedInsert, List.filter_cons]
  | cons b l ih =>
    rw [List.orderedInsert]
    by_cases hab : tsLe a b
    · rw [if_pos hab]
      by_cases hak : (a.timestamp == k) = true <;>
        simp [List.filter_cons, hak]
    · rw [if_neg hab]
      by_cases hak : (a.timestamp == k) = true
      · have hbk : (b.timestamp == k) = false := by
          cases hb : (b.timestamp == k) with
          | false => rfl
          | true =>
            exfalso
            apply hab
            have h1 : a.timestamp = k := by simpa using hak
            have h2 : b.timestamp = k := by simpa using hb
            show optLeB a.timestamp b.timestamp = true
            rw [h1, h2]
            exact optLeB_refl k
        simp [List.filter_cons, hak, hbk, ih]
      · simp [List.filter_cons, hak, ih]

theorem filter_sortEntries (k : Option Int) :
    ∀ l : List HistoryEntry,
      (sortEntries l).filter (fun e => e.timestamp == k) =
        l.filter (fun e => e.timestamp == k) := by
  intro l
  induction l with
  | nil => rfl
  | cons a l ih =>
    unfold sortEntries at ih ⊢
    rw [List.insertionSort, filter_orderedInsert, List.filter_cons]
    by_cases hak : (a.timestamp == k) = true
    · rw [if_pos hak, if_pos hak, ih]
    · rw [if_neg hak, if_neg hak, ih]

/-- Claim C7: the normalization step (stable sort by timestamp with `None`
below every concrete value, then adjacent dedup) yields a stream that is
pairwise — hence adjacently — sorted under `tsLe`, has no two adjacent
records with identical `(timestamp, command)`, and whose sorting phase
preserves the relative order of records with equal timestamps (the
equal-key fibre of the sort equals the fibre of the input). -/
theorem normalize_stream_invariants :
    ∀ l : List HistoryEntry,
      List.Pairwise tsLe (Heist.normalize l) ∧
      List.Chain' (fun a b => ¬(a.timestamp = b.timestamp ∧ a.command = b.command))
        (Heist.normalize l) ∧
      ∀ k : Option Int,
        (sortEntries l).filter (fun e => e.timestamp == k) =
          l.filter (fun e => e.timestamp == k) := by
  intro l
  refine ⟨?_, dedupAdj_chain _, fun k => filter_sortEntries k l⟩
  exact List.Pairwise.sublist (dedupAdj_sublist _) (List.sorted_insertionSort tsLe l)

/-! ### Claim C4 — top-N frequency ranking -/

/-- The claim's determinism is false: with the same two-record input, the
hash-map iteration order `["cd", "ls"]` — a permutation of the key set —
produces a ranking different from the one the first-appearance order
`["ls", "cd"]` produces, because the stable sort only orders by count and
the two tokens tie at count 1. -/
theorem top_frequency_order_dependent_cex :
    (["cd".data, "ls".data] : List (List Char)).Perm
      (distinctTokens [⟨none, "ls".data, none⟩, ⟨none, "cd".data, none⟩]) ∧
    top_frequency ["cd".data, "ls".data]
        [⟨none, "ls".data, none⟩, ⟨none, "cd".data, none⟩] 2 ≠
      top_frequency
        (distinctTokens [⟨none, "ls".data, none⟩, ⟨none, "cd".data, none⟩])
        [⟨none, "ls".data, none⟩, ⟨none, "cd".data, none⟩] 2 := by decide

/-- Claim C4 (amended): the `--top` ranking groups records by the first
whitespace-delimited token of the command and stable-sorts the hash map's
`(token, count)` pairs by count descending, so for every iteration order
(any permutation of the distinct tokens) the emitted counts are
non-increasing and the ranked pairs are, as a multiset, exactly the
distinct first tokens with their multiplicities; ties, however, are left
in the unspecified hash-map iteration order, not in first-appearance
order. -/
theorem top_frequency_ranking (iterOrder : List (List Char))
    (entries : List HistoryEntry) (n : Nat)
    (h : iterOrder.Perm (distinctTokens entries)) :
    List.Pairwise countGe (top_frequency iterOrder entries n) ∧
    List.Perm
      (List.insertionSort countGe
        (iterOrder.map (fun t => (t, tokenCount entries t))))
      ((distinctTokens entries).map (fun t => (t, tokenCount entries t))) := by
  constructor
  · exact List.Pairwise.sublist (List.take_sublist n _)
      (List.sorted_insertionSort countGe _)
  · exact (List.perm_insertionSort countGe _).trans (h.map _)

/-- Witness for `top_frequency_ranking` at a concrete iteration order. -/
theorem top_frequency_ranking_witness :
    List.Pairwise countGe
      (top_frequency ["cd".data, "ls".data]
        [⟨none, "ls".data, none⟩, ⟨none, "cd".data, none⟩] 2) ∧
    List.Perm
      (List.insertionSort countGe
        ((["cd".data, "ls".data] : List (List Char)).map
          (fun t => (t, tokenCount [⟨none, "ls".data, none⟩, ⟨none, "cd".data, none⟩] t))))
      ((distinctTokens [⟨none, "ls".data, none⟩, ⟨none, "cd".data, none⟩]).map
        (fun t => (t, tokenCount [⟨none, "ls".data, none⟩, ⟨none, "cd".data, none⟩] t))) :=
  top_frequency_ranking ["cd".data, "ls".data]
    [⟨none, "ls".data, none⟩, ⟨none, "cd".data, none⟩] 2 (by decide)

/-! ### Claim C8 — non-empty commands -/

theorem splitOnce_structure (c : Char) :
    ∀ (s a b : List Char), splitOnce c s = some (a, b) → s = a ++ c :: b := by
  intro s
  induction s with
  | nil => intro a b h; simp [splitOnce] at h
  | cons x xs ih =>
    intro a b h
    rw [splitOnce] at h
    by_cases hx : x = c
    · rw [if_pos hx] at h
      obtain ⟨rfl, rfl⟩ : ([] : List Char) = a ∧ xs = b := by
        constructor <;> [exact congrArg Prod.fst (Option.some.inj h);
          exact congrArg Prod.snd (Option.some.inj h)]
      simp [hx]
    · rw [if_neg hx] at h
      cases hsp : splitOnce c xs with
      | none => rw [hsp] at h; exact Option.noConfusion h
      | some p =>
        rw [hsp] at h
        have h' : (x :: p.1, p.2) = (a, b) := Option.some.inj h
        obtain ⟨rfl, rfl⟩ : x :: p.1 = a ∧ p.2 = b :=
          ⟨congrArg Prod.fst h', congrArg Prod.snd h'⟩
        have := ih p.1 p.2 (by rw [hsp])
        simp [this]

theorem dropWhile_eq_cons_false {p : Char → Bool} :
    ∀ (l : List Char) (c : Char) (t : List Char),
      l.dropWhile p = c :: t → p c = false := by
  intro l
  induction l with
  | nil => intro c t h; simp at h
  | cons x xs ih =>
    intro c t h
    by_cases hx : p x = true
    · rw [List.dropWhile_cons, if_pos hx] at h
      exact ih c t h
    · rw [List.dropWhile_cons, if_neg hx] at h
      obtain rfl : x = c := (List.cons.inj h).1
      simpa using hx

theorem trim_no_trailing_ws :
    ∀ (s a : List Char) (c : Char), trim s = a ++ [c] → isWs c = false := by
  intro s a c h
  have hrev : (trimStart s).reverse.dropWhile isWs = c :: a.reverse := by
    have h2 : ((trimStart s).reverse.dropWhile isWs).reverse = a ++ [c] := h
    calc (trimStart s).reverse.dropWhile isWs
        = ((trimStart s).reverse.dropWhile isWs).reverse.reverse := by
          rw [List.reverse_reverse]
      _ = (a ++ [c]).reverse := by rw [h2]
      _ = c :: a.reverse := by simp
  exact dropWhile_eq_cons_false _ c a.reverse hrev

theorem parse_bash_nonempty :
    ∀ lines : List (List Char), ∀ e ∈ parse_bash_history lines, e.command ≠ [] := by
  intro lines
  induction lines with
  | nil => intro e he; simp [parse_bash_history] at he
  | cons l rest ih =>
    intro e he
    rw [parse_bash_history, List.foldr] at he
    by_cases h : trim l = []
    · rw [if_pos h] at he
      exact ih e he
    · rw [if_neg h] at he
      rcases List.mem_cons.mp he with rfl | he
      · exact h
      · exact ih e he

theorem parse_plain_nonempty :
    ∀ (mtime : Option Int) (lines : List (List Char)),
      ∀ e ∈ parse_plain_history_inferred mtime lines, e.command ≠ [] := by
  intro mtime lines
  show ∀ e ∈ lines.enum.foldr _ [], _
  generalize infer_timestamps_from_file mtime lines = tss
  generalize lines.enum = ps
  induction ps with
  | nil => intro e he; simp at he
  | cons p ps ih =>
    intro e he
    rw [List.foldr] at he
    by_cases h : trim p.2 = []
    · rw [if_pos h] at he
      exact ih e he
    · rw [if_neg h] at he
      rcases List.mem_cons.mp he with rfl | he
      · exact h
      · exact ih e he

theorem parse_tcsh_nonempty :
    ∀ (conv : Int → Option Int) (lines : List (List Char)),
      ∀ e ∈ parse_tcsh_history conv lines, e.command ≠ [] := by
  intro conv lines
  induction lines with
  | nil => intro e he; simp [parse_tcsh_history] at he
  | cons l rest ih =>
    intro e he
    rw [parse_tcsh_history, List.foldr] at he
    by_cases h : trim l = []
    · rw [if_pos h] at he
      exact ih e he
    · rw [if_neg h] at he
      cases hsp : splitOnce '\t' (trim l) with
      | none =>
        rw [hsp] at he
        rcases List.mem_cons.mp he with rfl | he
        · exact h
        · exact ih e he
      | some p =>
        obtain ⟨ts, cmd⟩ := p
        rw [hsp] at he
        rcases List.mem_cons.mp he with rfl | he
        · show cmd ≠ []
          intro hcmd
          subst hcmd
          have hstruct := splitOnce_structure '\t' (trim l) ts [] hsp
          exact absurd (trim_no_trailing_ws l ts '\t' (by simpa using hstruct)) (by decide)
        · exact ih e he

/-- The claim is false for the zsh, fish and live-log readers: each can
produce a record whose command is empty — a zsh timestamp line with
nothing after the semicolon, a fish `- cmd: ` marker with no text, and a
live-log line with nothing after the `|`. -/
theorem empty_command_records_cex :
    parse_zsh_history (fun t => some t) [": 1:0;".data] =
      [⟨some 1, [], none⟩] ∧
    parse_fish_history (fun t => some t) ["- cmd: ".data] =
      [⟨none, [], none⟩] ∧
    parse_heist_live_history (fun _ => none) ["2024|".data] =
      [⟨none, [], none⟩] := by decide

/-- Claim C8 (amended): every record produced by the plain-list readers
(bash — shared by dash and sh — and the inferred-timestamp readers for
csh, ksh, mksh, yash, osh) and by the tcsh reader has a non-empty command;
the zsh, fish and live-log readers may produce records with empty commands
when the command text of a line is empty. -/
theorem reader_commands_nonempty :
    (∀ lines : List (List Char), ∀ e ∈ parse_bash_history lines, e.command ≠ []) ∧
    (∀ (mtime : Option Int) (lines : List (List Char)),
      ∀ e ∈ parse_plain_history_inferred mtime lines, e.command ≠ []) ∧
    (∀ (conv : Int → Option Int) (lines : List (List Char)),
      ∀ e ∈ parse_tcsh_history conv lines, e.command ≠ []) :=
  ⟨parse_bash_nonempty, parse_plain_nonempty, parse_tcsh_nonempty⟩

/-- Witness for `reader_commands_nonempty` at concrete one-line files. -/
theorem reader_commands_nonempty_witness :
    ("ls".data : List Char) ≠ [] :=
  reader_commands_nonempty.1 ["ls".data] ⟨none, "ls".data, none⟩ (by decide)

/-! ### Claim C2 — normalization of a self-concatenated list -/

theorem mem_dbl {a : HistoryEntry} : ∀ {s : List HistoryEntry}, a ∈ dbl s ↔ a ∈ s := by
  intro s
  induction s with
  | nil => simp [dbl]
  | cons b t ih => simp [dbl, ih]

theorem dbl_perm : ∀ s : List HistoryEntry, List.Perm (dbl s) (s ++ s) := by
  intro s
  induction s with
  | nil => simp [dbl]
  | cons a t ih =>
    show List.Perm (a :: a :: dbl t) (a :: (t ++ a :: t))
    refine List.Perm.trans (List.Perm.cons a (List.Perm.cons a ih)) ?_
    exact List.Perm.cons a List.perm_middle.symm

theorem dbl_pairwise : ∀ {s : List HistoryEntry},
    List.Pairwise tsLe s → List.Pairwise tsLe (dbl s) := by
  intro s
  induction s with
  | nil => intro h; simp [dbl]
  | cons a t ih =>
    intro h
    obtain ⟨ha, ht⟩ := List.pairwise_cons.mp h
    refine List.pairwise_cons.mpr ⟨?_, List.pairwise_cons.mpr ⟨?_, ih ht⟩⟩
    · intro x hx
      rcases List.mem_cons.mp hx with rfl | hx
      · exact optLeB_refl _
      · exact ha x (mem_dbl.mp hx)
    · intro x hx
      exact ha x (mem_dbl.mp hx)

theorem pairwise_ne_keyInj : ∀ {l : List HistoryEntry},
    List.Pairwise (fun a b => a.timestamp ≠ b.timestamp) l →
    ∀ a ∈ l, ∀ b ∈ l, a.timestamp = b.timestamp → a = b := by
  intro l
  induction l with
  | nil => intro _ a ha; simp at ha
  | cons x t ih =>
    intro h a ha b hb hab
    obtain ⟨hx, ht⟩ := List.pairwise_cons.mp h
    rcases List.mem_cons.mp ha with rfl | ha'
    · rcases List.mem_cons.mp hb with rfl | hb'
      · rfl
      · exact absurd hab (hx b hb')
    · rcases List.mem_cons.mp hb with rfl | hb'
      · exact absurd hab.symm (hx a ha')
      · exact ih ht a ha' b hb' hab

theorem eq_of_perm_of_sorted_keyInj : ∀ {l₁ l₂ : List HistoryEntry},
    (∀ a ∈ l₁, ∀ b ∈ l₁, tsLe a b → tsLe b a → a = b) →
    List.Perm l₁ l₂ → List.Pairwise tsLe l₁ → List.Pairwise tsLe l₂ → l₁ = l₂ := by
  intro l₁
  induction l₁ with
  | nil =>
    intro l₂ _ p _ _
    exact (p.symm.eq_nil).symm
  | cons a t₁ ih =>
    intro l₂ anti p s₁ s₂
    cases l₂ with
    | nil => exact absurd p.eq_nil (by simp)
    | cons b t₂ =>
      have ha2 : a ∈ b :: t₂ := p.subset (List.mem_cons_self a t₁)
      have hb1 : b ∈ a :: t₁ := p.symm.subset (List.mem_cons_self b t₂)
      have hab : tsLe a b := by
        rcases List.mem_cons.mp hb1 with rfl | hb
        · exact optLeB_refl _
        · exact List.rel_of_pairwise_cons s₁ hb
      have hba : tsLe b a := by
        rcases List.mem_cons.mp ha2 with rfl | ha
        · exact optLeB_refl _
        · exact List.rel_of_pairwise_cons s₂ ha
      obtain rfl : a = b := anti a (List.mem_cons_self a t₁) b hb1 hab hba
      have ht : t₁ = t₂ :=
        ih (fun x hx y hy => anti x (List.mem_cons_of_mem _ hx) y (List.mem_cons_of_mem _ hy))
          p.cons_inv (List.Pairwise.of_cons s₁) (List.Pairwise.of_cons s₂)
      rw [ht]

theorem dedupSame_self (a : HistoryEntry) : dedupSame a a = true := by
  simp [dedupSame]

theorem dedupSame_of_ne_ts {a b : HistoryEntry} (h : a.timestamp ≠ b.timestamp) :
    dedupSame a b = false := by
  simp [dedupSame, h]

theorem dedupAux_of_chain_ne :
    ∀ (s : List HistoryEntry) (x : HistoryEntry),
      List.Chain' (fun a b => a.timestamp ≠ b.timestamp) (x :: s) →
      dedupAux x s = s := by
  intro s
  induction s with
  | nil => intro x _; rfl
  | cons b t ih =>
    intro x h
    obtain ⟨hxb, ht⟩ := List.chain'_cons.mp h
    rw [dedupAux, if_neg (by simp [dedupSame_of_ne_ts hxb]), ih b ht]

theorem dedupAux_dbl_of_chain_ne :
    ∀ (s : List HistoryEntry) (x : HistoryEntry),
      List.Chain' (fun a b => a.timestamp ≠ b.timestamp) (x :: s) →
      dedupAux x (dbl s) = s := by
  intro s
  induction s with
  | nil => intro x _; rfl
  | cons b t ih =>
    intro x h
    obtain ⟨hxb, ht⟩ := List.chain'_cons.mp h
    show dedupAux x (b :: b :: dbl t) = b :: t
    rw [dedupAux, if_neg (by simp [dedupSame_of_ne_ts hxb])]
    rw [dedupAux, if_pos (dedupSame_self b)]
    rw [ih b ht]

theorem dedupAdj_dbl_of_chain_ne {s : List HistoryEntry}
    (h : List.Chain' (fun a b => a.timestamp ≠ b.timestamp) s) :
    dedupAdj (dbl s) = s := by
  cases s with
  | nil => rfl
  | cons a t =>
    show dedupAdj (a :: a :: dbl t) = a :: t
    rw [dedupAdj, dedupAux, if_pos (dedupSame_self a)]
    rw [dedupAux_dbl_of_chain_ne t a h]

theorem dedupAdj_of_chain_ne {s : List HistoryEntry}
    (h : List.Chain' (fun a b => a.timestamp ≠ b.timestamp) s) :
    dedupAdj s = s := by
  cases s with
  | nil => rfl
  | cons a t =>
    rw [dedupAdj, dedupAux_of_chain_ne t a h]

/-- The claim fails when two records share a timestamp: normalizing the
self-concatenation of the (already normalized) two-record list with equal
timestamps and distinct commands keeps all four records, because the
stable sort interleaves the copies and the dedup only removes adjacent
equal pairs. -/
theorem normalize_self_append_cex :
    Heist.normalize
        ([⟨some 0, "a".data, none⟩, ⟨some 0, "b".data, none⟩] ++
         [⟨some 0, "a".data, none⟩, ⟨some 0, "b".data, none⟩]) ≠
      Heist.normalize [⟨some 0, "a".data, none⟩, ⟨some 0, "b".data, none⟩] := by decide

/-- Claim C2 (amended): when no two records of the list share a timestamp,
normalization (stable sort then adjacent dedup) applied to the
concatenation of the list with itself yields exactly the normalization of
the original list.  (Determinism — the same two inputs normalizing to
identical output twice — is immediate since the embedded normalization is
a pure function.) -/
theorem normalize_self_append {l : List HistoryEntry}
    (h : List.Pairwise (fun a b => a.timestamp ≠ b.timestamp) l) :
    Heist.normalize (l ++ l) = Heist.normalize l := by
  have hperm_s : List.Perm (sortEntries l) l := List.perm_insertionSort tsLe l
  have hps : List.Pairwise tsLe (sortEntries l) := List.sorted_insertionSort tsLe l
  have hpn_s : List.Pairwise (fun a b => a.timestamp ≠ b.timestamp) (sortEntries l) :=
    (List.Perm.pairwise_iff (fun h1 h2 => h1 h2.symm) hperm_s).mpr h
  have hinj := pairwise_ne_keyInj h
  have anti : ∀ a ∈ sortEntries (l ++ l), ∀ b ∈ sortEntries (l ++ l),
      tsLe a b → tsLe b a → a = b := by
    intro a ha b hb hab hba
    have ha' : a ∈ l := by
      have := (List.perm_insertionSort tsLe (l ++ l)).subset ha
      rcases List.mem_append.mp this with h' | h' <;> exact h'
    have hb' : b ∈ l := by
      have := (List.perm_insertionSort tsLe (l ++ l)).subset hb
      rcases List.mem_append.mp this with h' | h' <;> exact h'
    exact hinj a ha' b hb' (optLeB_antisymm hab hba)
  have hsort_eq : sortEntries (l ++ l) = dbl (sortEntries l) := by
    refine eq_of_perm_of_sorted_keyInj anti ?_ ?_ ?_
    · refine List.Perm.trans (List.perm_insertionSort tsLe (l ++ l)) ?_
      refine List.Perm.trans ((hperm_s.append hperm_s).symm) ?_
      exact (dbl_perm (sortEntries l)).symm
    · exact List.sorted_insertionSort tsLe (l ++ l)
    · exact dbl_pairwise hps
  show dedupAdj (sortEntries (l ++ l)) = dedupAdj (sortEntries l)
  rw [hsort_eq]
  rw [dedupAdj_dbl_of_chain_ne hpn_s.chain']
  rw [dedupAdj_of_chain_ne hpn_s.chain']

/-- Witness for `normalize_self_append` at a two-record list with distinct
timestamps. -/
theorem normalize_self_append_witness :
    Heist.normalize
        ([⟨some 0, "a".data, none⟩, ⟨some 60, "b".data, none⟩] ++
         [⟨some 0, "a".data, none⟩, ⟨some 60, "b".data, none⟩]) =
      Heist.normalize [⟨some 0, "a".data, none⟩, ⟨some 60, "b".data, none⟩] :=
  normalize_self_append (by decide)

end Heist
